import Mathlib

/-!
Verification of the dependency-graph generator (fhir-spec-processor).

The Python program reads a corpus of `.graphql` documents, extracts type
definitions and field-type references with regular expressions, resolves a
main resource per document, builds a resource-to-dependencies adjacency map,
levels it with `graphlib.TopologicalSorter` into CSV rows, and emits a nested
JSON tree rooted at resources nobody depends on.

This file is a shallow embedding of that program: the regex scans are
modelled as explicit character scanners with the same matching semantics
(leftmost search, greedy repetition with the backtracking the concrete
patterns allow, non-overlapping findall), Python dicts as insertion-ordered
association lists with replace-on-rewrite, Python sets as duplicate-free
lists (membership-based, sorted before any order-relevant use, exactly as the
program sorts them), and `graphlib.TopologicalSorter` by its documented
semantics: `prepare()` raises `CycleError` up front when the graph is cyclic
(so on cyclic input the program aborts before writing any CSV row or JSON
tree), and otherwise `get_ready()` hands out, round by round, every node all
of whose predecessors are done.
-/

namespace FhirDeps

/-- Characters matched by Python `\s` (ASCII range): space, tab, newline,
carriage return, vertical tab, form feed. -/
def pyIsSpace (c : Char) : Bool :=
  c = ' ' || c = '\t' || c = '\n' || c = '\r' || c = '\x0b' || c = '\x0c'

/-- The regex class `[A-Z]`. -/
def isUpperAZ (c : Char) : Bool := 'A' ≤ c && c ≤ 'Z'

/-- The regex class `[a-z]`. -/
def isLowerAZ (c : Char) : Bool := 'a' ≤ c && c ≤ 'z'

/-- The regex class `[0-9]`. -/
def isDigit09 (c : Char) : Bool := '0' ≤ c && c ≤ '9'

/-- The regex class `[a-zA-Z0-9_]` (identically `[A-Za-z0-9_]`). -/
def isWordChar (c : Char) : Bool :=
  isUpperAZ c || isLowerAZ c || isDigit09 c || c = '_'

/-- Sorting used wherever the program calls `sorted(...)` on strings:
ascending lexicographic order. -/
def sortS (l : List String) : List String := l.insertionSort (fun a b => a ≤ b)

/-- Strip an exact literal from the front of the text. -/
def stripLit : List Char → List Char → Option (List Char)
  | [], cs => some cs
  | _ :: _, [] => none
  | l :: ls, c :: cs => if c = l then stripLit ls cs else none

/-- Match `\s+` at the front: at least one whitespace character, taken
greedily (the pattern element after every `\s+` here starts with a
non-space character, so the greedy take is exact). -/
def stripSpaces1 : List Char → Option (List Char)
  | [] => none
  | c :: cs => if pyIsSpace c then some (cs.dropWhile pyIsSpace) else none

/-- Match the capturing group `([A-Z][a-zA-Z0-9_]+)` at the front of the
text, greedily; returns the capture and the rest.  The `+` requires at
least one word character after the initial capital. -/
def capName : List Char → Option (List Char × List Char)
  | [] => none
  | c :: cs =>
    if isUpperAZ c then
      let run := cs.takeWhile isWordChar
      if run = [] then none else some (c :: run, cs.dropWhile isWordChar)
    else none

/-- Match `(?:type|interface)\s+` at the front.  Python tries the
alternatives left to right; the two literals can never both match at one
position, so no further backtracking between them arises. -/
def keywordThenSpace (cs : List Char) : Option (List Char) :=
  match stripLit ("type".toList) cs with
  | some r => stripSpaces1 r
  | none =>
    match stripLit ("interface".toList) cs with
    | some r => stripSpaces1 r
    | none => none

/-- `re.findall` for `(?:type|interface)\s+([A-Z][a-zA-Z0-9_]+)`: scan left
to right; on a match record the capture and continue after the match,
otherwise advance one character.  The fuel (one more than the text length)
never runs out because every step consumes at least one character. -/
def findAllDefs : Nat → List Char → List String
  | 0, _ => []
  | _ + 1, [] => []
  | fuel + 1, c :: rest =>
    match (keywordThenSpace (c :: rest)).bind capName with
    | some (nm, rest2) => String.mk nm :: findAllDefs fuel rest2
    | none => findAllDefs fuel rest

/-- `get_defined_types(content)`: all type and interface names defined in
the content, in order of appearance. -/
def get_defined_types (content : String) : List String :=
  findAllDefs (content.length + 1) content.toList

/-- Decide whether `.*?MARKER` matches at the front.  The pattern has no
DOTALL flag, so `.` excludes the newline: the marker must occur before any
newline is crossed. -/
def lazyScan (marker : List Char) : List Char → Bool
  | [] => marker.isPrefixOf []
  | c :: rest =>
    marker.isPrefixOf (c :: rest) || (!(c = '\n') && lazyScan marker rest)

/-- Decide whether `\s*implements\s*.*?MARKER` matches at the front (the
tail of the first search pattern of `get_main_resource_name`, after the
captured name).  Each `\s*` may take its maximal whitespace run: the
literal after the first starts with a non-space character, and for the
second any shorter split is subsumed because `.` also matches the space
characters the star would leave behind, while whitespace containing a
newline must be covered by the star since `.` cannot cross it. -/
def implTail (marker : List Char) (cs : List Char) : Bool :=
  match stripLit ("implements".toList) (cs.dropWhile pyIsSpace) with
  | some r => lazyScan marker (r.dropWhile pyIsSpace)
  | none => false

/-- Backtracking for `([A-Z][a-zA-Z0-9_]+)\s*implements\s*.*?MARKER`: the
greedy capture gives back characters from the right end of the word-run
(never below one character after the initial capital) until the tail
matches.  Given-back characters are word characters, so the `\s*` after
the capture matches empty text on every backtracked attempt and the tail
check starts directly at the given-back text. -/
def capBT (marker : List Char) (c : Char) (run tl : List Char) : Nat → Option (List Char)
  | 0 => none
  | j + 1 =>
    if implTail marker (run.drop (j + 1) ++ tl) then some (c :: run.take (j + 1))
    else capBT marker c run tl j

/-- One attempt of `type\s+([A-Z][a-zA-Z0-9_]+)\s*implements\s*.*?MARKER`
at the current position. -/
def implDeclAt (marker : List Char) (cs : List Char) : Option (List Char) :=
  match stripLit ("type".toList) cs with
  | none => none
  | some r1 =>
    match stripSpaces1 r1 with
    | none => none
    | some r2 =>
      match r2 with
      | [] => none
      | c :: rest =>
        if isUpperAZ c then
          let run := rest.takeWhile isWordChar
          if run = [] then none
          else capBT marker c run (rest.dropWhile isWordChar) run.length
        else none

/-- `re.search` for the marker-interface declaration pattern: leftmost
match, advancing one character on failure. -/
def searchImplDecl (marker : List Char) : Nat → List Char → Option String
  | 0, _ => none
  | _ + 1, [] => none
  | fuel + 1, c :: rest =>
    match implDeclAt marker (c :: rest) with
    | some nm => some (String.mk nm)
    | none => searchImplDecl marker fuel rest

/-- One attempt of `type\s+([A-Z][a-zA-Z0-9_]+)` at the current
position. -/
def typeDeclAt (cs : List Char) : Option (List Char) :=
  match stripLit ("type".toList) cs with
  | none => none
  | some r1 =>
    match stripSpaces1 r1 with
    | none => none
    | some r2 => (capName r2).map (fun p => p.1)

/-- `re.search` for `type\s+([A-Z][a-zA-Z0-9_]+)`: leftmost match. -/
def searchTypeDecl : Nat → List Char → Option String
  | 0, _ => none
  | _ + 1, [] => none
  | fuel + 1, c :: rest =>
    match typeDeclAt (c :: rest) with
    | some nm => some (String.mk nm)
    | none => searchTypeDecl fuel rest

/-- Python `filename.split('.')[0]`: the text before the first dot. -/
def splitDotHead (s : String) : List Char :=
  s.toList.takeWhile (fun c => !(c = '.'))

/-- Python `str.capitalize()` (ASCII range): first character upper-cased,
all following characters lower-cased. -/
def pyCapitalize (cs : List Char) : String :=
  match cs with
  | [] => ""
  | c :: rest => String.mk (c.toUpper :: rest.map Char.toLower)

/-- `get_main_resource_name(content, filename)`: first a declaration
implementing `IDomainResource`, then one implementing `IResource`, then any
`type` declaration, then the capitalized filename stem. -/
def get_main_resource_name (content filename : String) : String :=
  match searchImplDecl ("IDomainResource".toList) (content.length + 1) content.toList with
  | some nm => nm
  | none =>
    match searchImplDecl ("IResource".toList) (content.length + 1) content.toList with
    | some nm => nm
    | none =>
      match searchTypeDecl (content.length + 1) content.toList with
      | some nm => nm
      | none => pyCapitalize (splitDotHead filename)

/-- Match `([^}]+)\}` at the front: a maximal nonempty run of characters
other than the closing brace, which the closing brace must follow (the
head of the dropWhile result is that brace whenever it is nonempty). -/
def braceBody (cs : List Char) : Option (List Char × List Char) :=
  let body := cs.takeWhile (fun c => !(c = '\x7d'))
  match cs.dropWhile (fun c => !(c = '\x7d')) with
  | _ :: rest => if body = [] then none else some (body, rest)
  | [] => none

/-- Lazy `.*?` (DOTALL) up to a `\{([^}]+)\}` that completes: take the
first opening brace whose body capture succeeds, scanning further on a
failed body exactly as the lazy dot does. -/
def firstBraceBody : List Char → Option (List Char × List Char)
  | [] => none
  | c :: rest =>
    if c = '\x7b' then
      match braceBody rest with
      | some r => some r
      | none => firstBraceBody rest
    else firstBraceBody rest

/-- The tail `\s*(?:implements\s*.*?)*\s*\{([^}]+)\}` (DOTALL) of the block
pattern of `get_dependencies_from_content`, after the identifier.  The
greedy star tries an `implements` iteration first; once one literal is
consumed the lazy `.*?` under DOTALL reaches exactly the positions scanned
by `firstBraceBody`, and further star iterations reach no earlier brace.
With no `implements` literal at the front the star matches zero iterations
and the brace must follow the whitespace directly. -/
def blockTail (cs : List Char) : Option (List Char × List Char) :=
  let cs1 := cs.dropWhile pyIsSpace
  match stripLit ("implements".toList) cs1 with
  | some r => firstBraceBody r
  | none =>
    match cs1 with
    | c :: rest => if c = '\x7b' then braceBody rest else none
    | [] => none

/-- Backtracking over the greedy `[A-Za-z0-9_]+` identifier of the block
pattern: give back word characters from the right (never below one) until
the tail matches; given-back characters are word characters, so the `\s*`
after the identifier matches empty text on backtracked attempts. -/
def identBT (run tl : List Char) : Nat → Option (List Char × List Char)
  | 0 => none
  | j + 1 =>
    match blockTail (run.drop (j + 1) ++ tl) with
    | some r => some r
    | none => identBT run tl j

/-- One attempt of the block pattern
`(?:type|interface)\s+[A-Za-z0-9_]+\s*(?:implements\s*.*?)*\s*\{([^}]+)\}`
(DOTALL) at the current position; returns the captured body and the text
after the whole match. -/
def blockAt (cs : List Char) : Option (List Char × List Char) :=
  match keywordThenSpace cs with
  | none => none
  | some r =>
    match r with
    | [] => none
    | c :: rest =>
      if isWordChar c then
        let run := c :: rest.takeWhile isWordChar
        identBT run (rest.dropWhile isWordChar) run.length
      else none

/-- `re.findall` of the block pattern: every type/interface body, left to
right, continuing after each whole match. -/
def findAllBlocks : Nat → List Char → List (List Char)
  | 0, _ => []
  | _ + 1, [] => []
  | fuel + 1, c :: rest =>
    match blockAt (c :: rest) with
    | some (body, rest2) => body :: findAllBlocks fuel rest2
    | none => findAllBlocks fuel rest

/-- One attempt of `:\s*\[?([A-Z][a-zA-Z0-9_]+)` at the current position
(the optional `[` is taken when present; declining it cannot help, since
`[` is not in `[A-Z]`). -/
def fieldTypeAt (cs : List Char) : Option (List Char × List Char) :=
  match cs with
  | ':' :: r =>
    let r1 := r.dropWhile pyIsSpace
    let r2 :=
      match r1 with
      | '[' :: t => t
      | _ => r1
    capName r2
  | _ => none

/-- `re.findall` of the field-type pattern inside one body. -/
def findFieldTypes : Nat → List Char → List String
  | 0, _ => []
  | _ + 1, [] => []
  | fuel + 1, c :: rest =>
    match fieldTypeAt (c :: rest) with
    | some (nm, rest2) => String.mk nm :: findFieldTypes fuel rest2
    | none => findFieldTypes fuel rest

/-- `get_dependencies_from_content(content)`: every field-type capture
inside every type/interface body, gathered into a set (modelled as a
duplicate-free list). -/
def get_dependencies_from_content (content : String) : List String :=
  (findAllBlocks (content.length + 1) content.toList).foldl
    (fun acc body =>
      (findFieldTypes (body.length + 1) body).foldl (fun a t => a.insert t) acc)
    []

/-- The configured scalar/leaf type names (`SCALAR_TYPES` in the source). -/
def SCALAR_TYPES : List String :=
  ["ID", "String", "Boolean", "uri", "code", "markdown", "instant",
   "positiveInt", "dateTime", "Int", "Float", "date", "base64Binary",
   "canonical", "oid", "time", "unsignedInt", "url", "uuid", "xhtml",
   "decimal"]

/-- Python-dict assignment on an insertion-ordered association list: an
existing key keeps its position and gets the new value (last write wins), a
new key is appended. -/
def dictInsert {α : Type} : List (String × α) → String → α → List (String × α)
  | [], k, v => [(k, v)]
  | (k0, v0) :: t, k, v =>
    if k0 = k then (k, v) :: t else (k0, v0) :: dictInsert t k v

/-- The first loop of `main`: per document, resolve the main resource,
record its raw references in `file_data`, and point every defined type at
the resource in `type_to_resource_map`. -/
def processFile (acc : List (String × List String) × List (String × String))
    (file : String × String) :
    List (String × List String) × List (String × String) :=
  let mainResource := get_main_resource_name file.2 file.1
  (dictInsert acc.1 mainResource (get_dependencies_from_content file.2),
   (get_defined_types file.2).foldl (fun tm t => dictInsert tm t mainResource) acc.2)

/-- `file_data` (resource name to raw reference set) and
`type_to_resource_map` for a corpus of (filename, content) documents. -/
def processCorpus (corpus : List (String × String)) :
    List (String × List String) × List (String × String) :=
  corpus.foldl processFile ([], [])

/-- The adjacency structure `dependency_map`: the list of keys (resources
with at least one recorded dependency) and, as a function, the dependency
set recorded for each key. -/
structure DepMap where
  keys : List String
  val : String → List String

/-- `dependency_map.get(n, [])`: the recorded dependency set of `n`, empty
when `n` is not a key. -/
def depsOf (m : DepMap) (n : String) : List String :=
  if n ∈ m.keys then m.val n else []

def emptyDM : DepMap := ⟨[], fun _ => []⟩

/-- `dependency_map[r].add(d)` on a `defaultdict(set)`: make `r` a key if
new, and add `d` to its set if absent. -/
def addDep (m : DepMap) (r d : String) : DepMap :=
  ⟨if r ∈ m.keys then m.keys else m.keys ++ [r],
   fun x => if x = r then (depsOf m r).insert d else m.val x⟩

/-- Python `type_to_resource_map.get(dep)`: the value at the first (unique,
by `dictInsert`) matching key, if any. -/
def tlookup (tm : List (String × String)) (d : String) : Option String :=
  match tm with
  | [] => none
  | p :: t => if p.1 = d then some p.2 else tlookup t d

/-- The body of the graph-building loop for one raw reference `d` of
resource `r`: skip scalars and self references, then add the edge `r → d`
unless the ownership map resolves `d` to `r` itself. -/
def buildStep (tm : List (String × String)) (r : String) (m : DepMap)
    (d : String) : DepMap :=
  if d ∈ SCALAR_TYPES ∨ d = r then m
  else if tlookup tm d = some r then m else addDep m r d

/-- The graph-building loop over every resource and every raw
reference. -/
def buildDependencyMap (fd : List (String × List String))
    (tm : List (String × String)) : DepMap :=
  fd.foldl (fun m p => p.2.foldl (buildStep tm p.1) m) emptyDM

/-- The whole front half of `main`: corpus to `dependency_map`. -/
def corpusDepMap (corpus : List (String × String)) : DepMap :=
  buildDependencyMap (processCorpus corpus).1 (processCorpus corpus).2

/-- The node set of the graph handed to `TopologicalSorter`: the keys of
`dependency_map` together with every name appearing in a dependency
set. -/
def nodesList (m : DepMap) : List String :=
  (m.keys ++ m.keys.flatMap (fun k => depsOf m k)).dedup

/-- `sorted(list(ts.get_ready()))`: the nodes, not yet done, all of whose
dependencies are done, in ascending name order. -/
def readyAt (m : DepMap) (done : List String) : List String :=
  sortS ((nodesList m).filter
    (fun n => decide (¬ n ∈ done) && decide (∀ d ∈ depsOf m n, d ∈ done)))

/-- The set of nodes finished after `k` rounds of the Kahn loop. -/
def doneAt (m : DepMap) : Nat → List String
  | 0 => []
  | k + 1 => doneAt m k ++ readyAt m (doneAt m k)

/-- One CSV row: level, resource, sorted dependency list. -/
abbrev Row := Nat × String × List String

/-- The CSV loop.  A stalled round (no node ready while nodes remain) is
the cycle case; the concrete program then has already died inside
`ts.prepare()`, which raises `CycleError` on cyclic input before the CSV
file is even opened, so the error result carries no rows at all.  Fuel
exhaustion also returns the error, but the fuel `levelCsv` passes is one
more than the node count and every non-final round finishes at least one
node, so it is never reached. -/
def levelLoop (m : DepMap) : Nat → List String → Nat → Except Unit (List Row)
  | 0, _, _ => Except.error ()
  | fuel + 1, done, lvl =>
    if (nodesList m).all (fun n => decide (n ∈ done)) then Except.ok []
    else if readyAt m done = [] then Except.error ()
    else
      match levelLoop m fuel (done ++ readyAt m done) (lvl + 1) with
      | Except.error e => Except.error e
      | Except.ok rows =>
        Except.ok ((readyAt m done).map (fun n => (lvl, n, sortS (depsOf m n))) ++ rows)

/-- The leveled output: `CycleError` (and then no rows at all), or every
row in emission order. -/
def levelCsv (m : DepMap) : Except Unit (List Row) :=
  levelLoop m ((nodesList m).length + 1) [] 0

/-- Round `k` of ready nodes. -/
def wave (m : DepMap) (k : Nat) : List String := readyAt m (doneAt m k)

/-- A stalled round: some node remains while none is ready. -/
def stallAt (m : DepMap) (k : Nat) : Prop :=
  readyAt m (doneAt m k) = [] ∧ ∃ n ∈ nodesList m, ¬ n ∈ doneAt m k

/-- Acyclicity of the dependency graph: some ranking strictly drops along
every edge. -/
def Acyclic (m : DepMap) : Prop :=
  ∃ rank : String → Nat, ∀ n d, d ∈ depsOf m n → rank d < rank n

/-- A JSON tree node: name plus the optional `children` list (the field is
absent when the node has no dependencies). -/
inductive TreeNode where
  | node : String → Option (List TreeNode) → TreeNode

def TreeNode.name : TreeNode → String
  | node nm _ => nm

/-- List map with failure propagation. -/
def optMapList {α β : Type} (f : α → Option β) : List α → Option (List β)
  | [] => some []
  | a :: l =>
    match f a, optMapList f l with
    | some b, some bs => some (b :: bs)
    | _, _ => none

/-- `build_node`, with fuel standing in for the unbounded recursion of the
Python function.  The memo of the source caches nodes that are a pure
function of the graph and the name; it shares subtree objects without
changing any output shape, so the recursion is modelled directly.  `none`
means the fuel ran out, which on the acyclic graphs that ever reach tree
generation the fuel passed by `pipelineTree` never does. -/
def buildNode (m : DepMap) : Nat → String → Option TreeNode
  | 0, _ => none
  | fuel + 1, nm =>
    let ds := sortS (depsOf m nm)
    if ds = [] then some (TreeNode.node nm none)
    else
      match optMapList (buildNode m fuel) ds with
      | some cs => some (TreeNode.node nm (some cs))
      | none => none

/-- `sorted(list(root_nodes))`: the graph keys that appear in no dependency
set, in ascending name order. -/
def rootsList (m : DepMap) : List String :=
  sortS (m.keys.dedup.filter
    (fun r => decide (¬ r ∈ m.keys.flatMap (fun k => depsOf m k))))

/-- The JSON forest as `main` produces it: nothing on cyclic input (the
program aborts inside `ts.prepare()` before tree generation), otherwise
one tree per root. -/
def pipelineTree (m : DepMap) : Option (List TreeNode) :=
  match levelCsv m with
  | Except.error _ => none
  | Except.ok _ => optMapList (buildNode m ((nodesList m).length + 1)) (rootsList m)

/-- A produced node is faithful to the graph: its children names are
exactly its resource's sorted dependency set, the `children` field is
absent exactly when that set is empty, and the same holds recursively. -/
inductive TreeMatches (m : DepMap) : TreeNode → Prop
  | leaf (nm : String) : depsOf m nm = [] →
      TreeMatches m (TreeNode.node nm none)
  | branch (nm : String) (cs : List TreeNode) :
      ¬ depsOf m nm = [] →
      cs.map TreeNode.name = sortS (depsOf m nm) →
      (∀ c ∈ cs, TreeMatches m c) →
      TreeMatches m (TreeNode.node nm (some cs))

/-- Occurrence of a node inside a tree. -/
inductive OccursIn : TreeNode → TreeNode → Prop
  | refl (t : TreeNode) : OccursIn t t
  | child (t c : TreeNode) (nm : String) (cs : List TreeNode) :
      c ∈ cs → OccursIn t c → OccursIn t (TreeNode.node nm (some cs))

/-- The two-resource cyclic graph of the A-references-B, B-references-A
scenario. -/
def exCycleMap : DepMap :=
  ⟨["A", "B"], fun n => if n = "A" then ["B"] else if n = "B" then ["A"] else []⟩

/-- The acyclic graph of the A-references-B scenario (B has no recorded
dependencies, so it is not a key). -/
def exMapAB : DepMap :=
  ⟨["A"], fun n => if n = "A" then ["B"] else []⟩

/-- A graph given with one iteration order of its keys. -/
def exMapOrder1 : DepMap :=
  ⟨["A", "C"], fun n => if n = "A" then ["B"] else if n = "C" then ["A"] else []⟩

/-- The same graph with its keys in another iteration order. -/
def exMapOrder2 : DepMap :=
  ⟨["C", "A"], fun n => if n = "A" then ["B"] else if n = "C" then ["A"] else []⟩

/-- One-document corpus whose resource references only a scalar. -/
def cexCorpusScalar : List (String × String) :=
  [("patient.graphql", "type Ab \x7b f: String \x7d")]

/-- Three documents: Ab references Cd; Cd and Ef reference only scalars,
so Ef is an edge-less leaf that nothing depends on. -/
def cexCorpusLeaf : List (String × String) :=
  [("a.graphql", "type Ab \x7b f: Cd \x7d"),
   ("c.graphql", "type Cd \x7b f: String \x7d"),
   ("e.graphql", "type Ef \x7b f: String \x7d")]

/-- Graph-builder input with an unresolved reference (`Unknown` has no
owner) and a reference to a type (`Patient_Contact`) owned by a different
resource (`Patient`). -/
def cexFileData : List (String × List String) :=
  [("Observation", ["Unknown", "Patient_Contact"])]

/-- Ownership map for `cexFileData`. -/
def cexTypeMap : List (String × String) :=
  [("Patient_Contact", "Patient"), ("Patient", "Patient"),
   ("Observation", "Observation")]

/-- Document content exercising every extraction pattern at once. -/
def exContent : String :=
  "type Ab implements IResource \x7b f: [Cd] g: Ef \x7d"

theorem sortS_sorted (l : List String) : (sortS l).Sorted (fun a b : String => a ≤ b) :=
  List.sorted_insertionSort _ l

theorem sortS_perm (l : List String) : List.Perm (sortS l) l :=
  List.perm_insertionSort _ l

theorem mem_sortS (a : String) (l : List String) : a ∈ sortS l ↔ a ∈ l :=
  (sortS_perm l).mem_iff

theorem sortS_congr (l₁ l₂ : List String) (h : List.Perm l₁ l₂) : sortS l₁ = sortS l₂ :=
  List.eq_of_perm_of_sorted ((sortS_perm l₁).trans (h.trans (sortS_perm l₂).symm))
    (sortS_sorted l₁) (sortS_sorted l₂)

theorem sortS_eq_nil_iff (l : List String) : sortS l = [] ↔ l = [] := by
  constructor
  · intro h
    have p := sortS_perm l
    rw [h] at p
    exact p.symm.eq_nil
  · intro h
    subst h
    rfl

theorem depsOf_emptyDM (x : String) : depsOf emptyDM x = [] := by
  simp [depsOf, emptyDM]

theorem depsOf_addDep (m : DepMap) (r d x : String) :
    depsOf (addDep m r d) x =
      if x = r then (depsOf m r).insert d else depsOf m x := by
  unfold depsOf addDep
  by_cases hx : x = r
  · subst hx
    by_cases h : x ∈ m.keys <;> simp [depsOf, h, List.insert]
  · by_cases h : r ∈ m.keys <;> by_cases h2 : x ∈ m.keys <;>
      simp [depsOf, h, h2, hx]

theorem mem_depsOf_buildStep (tm : List (String × String)) (r d : String)
    (m : DepMap) (x y : String) :
    y ∈ depsOf (buildStep tm r m d) x ↔
      y ∈ depsOf m x ∨
        (x = r ∧ y = d ∧ ¬ d ∈ SCALAR_TYPES ∧ ¬ d = r ∧
          ¬ tlookup tm d = some r) := by
  unfold buildStep
  split_ifs with h1 h2
  · rcases h1 with h1 | h1 <;> tauto
  · tauto
  · push_neg at h1
    rw [depsOf_addDep]
    by_cases hx : x = r
    · rw [if_pos hx]
      subst hx
      rw [List.mem_insert_iff]
      tauto
    · rw [if_neg hx]
      tauto

theorem mem_depsOf_innerFold (tm : List (String × String)) (r : String)
    (raws : List String) (m0 : DepMap) (x y : String) :
    y ∈ depsOf (raws.foldl (buildStep tm r) m0) x ↔
      y ∈ depsOf m0 x ∨
        (x = r ∧ y ∈ raws ∧ ¬ y ∈ SCALAR_TYPES ∧ ¬ y = r ∧
          ¬ tlookup tm y = some r) := by
  induction raws generalizing m0 with
  | nil => simp
  | cons d t ih =>
    rw [List.foldl_cons, ih, mem_depsOf_buildStep]
    constructor
    · rintro ((h | ⟨hx, hy, h3, h4, h5⟩) | ⟨hx, hy, h3, h4, h5⟩)
      · exact Or.inl h
      · subst hy
        exact Or.inr ⟨hx, List.mem_cons_self _ _, h3, h4, h5⟩
      · exact Or.inr ⟨hx, List.mem_cons_of_mem _ hy, h3, h4, h5⟩
    · rintro (h | ⟨hx, hy, h3, h4, h5⟩)
      · exact Or.inl (Or.inl h)
      · rcases List.mem_cons.mp hy with hy | hy
        · subst hy
          exact Or.inl (Or.inr ⟨hx, rfl, h3, h4, h5⟩)
        · exact Or.inr ⟨hx, hy, h3, h4, h5⟩

theorem mem_depsOf_build (fd : List (String × List String))
    (tm : List (String × String)) (x y : String) :
    y ∈ depsOf (buildDependencyMap fd tm) x ↔
      (∃ raws, (x, raws) ∈ fd ∧ y ∈ raws) ∧
        ¬ y ∈ SCALAR_TYPES ∧ ¬ y = x ∧ ¬ tlookup tm y = some x := by
  have main : ∀ (fd : List (String × List String)) (m0 : DepMap),
      y ∈ depsOf (fd.foldl (fun m p => p.2.foldl (buildStep tm p.1) m) m0) x ↔
        y ∈ depsOf m0 x ∨
          ((∃ raws, (x, raws) ∈ fd ∧ y ∈ raws) ∧
            ¬ y ∈ SCALAR_TYPES ∧ ¬ y = x ∧ ¬ tlookup tm y = some x) := by
    intro fd
    induction fd with
    | nil => simp
    | cons p t ih =>
      obtain ⟨p1, p2⟩ := p
      intro m0
      rw [List.foldl_cons, ih, mem_depsOf_innerFold]
      constructor
      · rintro ((h | ⟨hx, hy, h3, h4, h5⟩) | ⟨⟨raws, hmem, hy⟩, h3, h4, h5⟩)
        · exact Or.inl h
        · subst hx
          exact Or.inr ⟨⟨p2, List.mem_cons_self _ _, hy⟩, h3, h4, h5⟩
        · exact Or.inr ⟨⟨raws, List.mem_cons_of_mem _ hmem, hy⟩, h3, h4, h5⟩
      · rintro (h | ⟨⟨raws, hmem, hy⟩, h3, h4, h5⟩)
        · exact Or.inl (Or.inl h)
        · rcases List.mem_cons.mp hmem with hm | hm
          · injection hm with hx hr
            subst hx
            subst hr
            exact Or.inl (Or.inr ⟨rfl, hy, h3, h4, h5⟩)
          · exact Or.inr ⟨⟨raws, hm, hy⟩, h3, h4, h5⟩
  have h := main fd emptyDM
  rw [depsOf_emptyDM] at h
  simpa [buildDependencyMap] using h

theorem length_mk (cs : List Char) : (String.mk cs).length = cs.length := rfl

theorem capName_length (cs nm rest : List Char)
    (h : capName cs = some (nm, rest)) : 2 ≤ nm.length := by
  cases cs with
  | nil => simp [capName] at h
  | cons c t =>
    simp only [capName] at h
    split_ifs at h with hu hr
    · cases h
      have hp : 0 < (t.takeWhile isWordChar).length := List.length_pos.mpr hr
      simp only [List.length_cons]
      omega

theorem findAllDefs_length (fuel : Nat) (cs : List Char) :
    ∀ nm ∈ findAllDefs fuel cs, 2 ≤ nm.length := by
  induction fuel generalizing cs with
  | zero => intro nm h; simp [findAllDefs] at h
  | succ f ih =>
    intro nm h
    cases cs with
    | nil => simp [findAllDefs] at h
    | cons c t =>
      rw [findAllDefs] at h
      cases hk : (keywordThenSpace (c :: t)).bind capName with
      | none =>
        rw [hk] at h
        exact ih t nm h
      | some p =>
        obtain ⟨nm2, rest2⟩ := p
        rw [hk] at h
        rcases List.mem_cons.mp h with h | h
        · subst h
          obtain ⟨r, _, hcap⟩ := Option.bind_eq_some.mp hk
          rw [length_mk]
          exact capName_length r nm2 rest2 hcap
        · exact ih rest2 nm h

theorem capBT_length (marker : List Char) (c : Char) (run tl : List Char)
    (hrun : ¬ run = []) :
    ∀ (j : Nat) (nm : List Char), capBT marker c run tl j = some nm →
      2 ≤ nm.length := by
  intro j
  induction j with
  | zero => intro nm h; simp [capBT] at h
  | succ j ih =>
    intro nm h
    rw [capBT] at h
    split_ifs at h with hc
    · injection h with h1
      subst h1
      have hp : 0 < run.length := List.length_pos.mpr hrun
      simp only [List.length_cons, List.length_take]
      omega
    · exact ih nm h

theorem implDeclAt_length (marker : List Char) (cs nm : List Char)
    (h : implDeclAt marker cs = some nm) : 2 ≤ nm.length := by
  unfold implDeclAt at h
  cases h1 : stripLit ("type".toList) cs with
  | none =>
    simp only [h1] at h
    exact Option.noConfusion h
  | some r1 =>
    simp only [h1] at h
    cases h2 : stripSpaces1 r1 with
    | none =>
      simp only [h2] at h
      exact Option.noConfusion h
    | some r2 =>
      simp only [h2] at h
      cases r2 with
      | nil => simp at h
      | cons c rest =>
        simp only at h
        split_ifs at h with hu hr
        exact capBT_length marker c (rest.takeWhile isWordChar)
          (rest.dropWhile isWordChar) hr _ nm h

theorem searchImplDecl_length (marker : List Char) :
    ∀ (fuel : Nat) (cs : List Char) (s : String),
      searchImplDecl marker fuel cs = some s → 2 ≤ s.length := by
  intro fuel
  induction fuel with
  | zero => intro cs s h; simp [searchImplDecl] at h
  | succ f ih =>
    intro cs s h
    cases cs with
    | nil => simp [searchImplDecl] at h
    | cons c t =>
      rw [searchImplDecl] at h
      cases hd : implDeclAt marker (c :: t) with
      | some nm =>
        rw [hd] at h
        injection h with h1
        subst h1
        rw [length_mk]
        exact implDeclAt_length marker (c :: t) nm hd
      | none =>
        rw [hd] at h
        exact ih t s h

theorem typeDeclAt_length (cs nm : List Char)
    (h : typeDeclAt cs = some nm) : 2 ≤ nm.length := by
  unfold typeDeclAt at h
  cases h1 : stripLit ("type".toList) cs with
  | none =>
    simp only [h1] at h
    exact Option.noConfusion h
  | some r1 =>
    simp only [h1] at h
    cases h2 : stripSpaces1 r1 with
    | none =>
      simp only [h2] at h
      exact Option.noConfusion h
    | some r2 =>
      simp only [h2] at h
      rw [Option.map_eq_some'] at h
      obtain ⟨p, hcap, hfst⟩ := h
      subst hfst
      exact capName_length r2 p.1 p.2 hcap

theorem searchTypeDecl_length :
    ∀ (fuel : Nat) (cs : List Char) (s : String),
      searchTypeDecl fuel cs = some s → 2 ≤ s.length := by
  intro fuel
  induction fuel with
  | zero => intro cs s h; simp [searchTypeDecl] at h
  | succ f ih =>
    intro cs s h
    cases cs with
    | nil => simp [searchTypeDecl] at h
    | cons c t =>
      rw [searchTypeDecl] at h
      cases hd : typeDeclAt (c :: t) with
      | some nm =>
        rw [hd] at h
        injection h with h1
        subst h1
        rw [length_mk]
        exact typeDeclAt_length (c :: t) nm hd
      | none =>
        rw [hd] at h
        exact ih t s h

theorem fieldTypeAt_length (cs : List Char) (nm rest : List Char)
    (h : fieldTypeAt cs = some (nm, rest)) : 2 ≤ nm.length := by
  unfold fieldTypeAt at h
  split at h
  · exact capName_length _ nm rest h
  · exact Option.noConfusion h

theorem findFieldTypes_length (fuel : Nat) (cs : List Char) :
    ∀ nm ∈ findFieldTypes fuel cs, 2 ≤ nm.length := by
  induction fuel generalizing cs with
  | zero => intro nm h; simp [findFieldTypes] at h
  | succ f ih =>
    intro nm h
    cases cs with
    | nil => simp [findFieldTypes] at h
    | cons c t =>
      rw [findFieldTypes] at h
      cases hk : fieldTypeAt (c :: t) with
      | none =>
        rw [hk] at h
        exact ih t nm h
      | some p =>
        obtain ⟨nm2, rest2⟩ := p
        rw [hk] at h
        rcases List.mem_cons.mp h with h | h
        · subst h
          rw [length_mk]
          exact fieldTypeAt_length (c :: t) nm2 rest2 hk
        · exact ih rest2 nm h

theorem mem_foldl_insert (l : List String) (acc : List String) (x : String) :
    x ∈ l.foldl (fun a t => a.insert t) acc ↔ x ∈ acc ∨ x ∈ l := by
  induction l generalizing acc with
  | nil => simp
  | cons b t ih =>
    rw [List.foldl_cons, ih, List.mem_insert_iff]
    constructor
    · rintro ((h | h) | h)
      · subst h
        exact Or.inr (List.mem_cons_self _ _)
      · exact Or.inl h
      · exact Or.inr (List.mem_cons_of_mem _ h)
    · rintro (h | h)
      · exact Or.inl (Or.inr h)
      · rcases List.mem_cons.mp h with h | h
        · exact Or.inl (Or.inl h)
        · exact Or.inr h

theorem get_dependencies_length (content : String) :
    ∀ d ∈ get_dependencies_from_content content, 2 ≤ d.length := by
  unfold get_dependencies_from_content
  have main : ∀ (blocks : List (List Char)) (acc : List String),
      (∀ x ∈ acc, 2 ≤ x.length) →
      ∀ x ∈ blocks.foldl (fun acc body =>
          (findFieldTypes (body.length + 1) body).foldl
            (fun a t => a.insert t) acc) acc,
        2 ≤ x.length := by
    intro blocks
    induction blocks with
    | nil => intro acc hacc; exact hacc
    | cons b t ih =>
      intro acc hacc
      rw [List.foldl_cons]
      apply ih
      intro x hx
      rcases (mem_foldl_insert _ _ _).mp hx with h | h
      · exact hacc x h
      · exact findFieldTypes_length _ _ x h
  exact main _ [] (by intro x hx; cases hx)

/-- C1 counterexample: in the built graph the resource `Observation` keeps
its unresolved reference `Unknown` (no entry in the ownership map) as a
dependency, records the raw name `Patient_Contact` itself rather than its
owner, and never records that owner `Patient` — against the claim that the
added edge is `R → owner(D)` and that unresolved references contribute no
edge. -/
theorem claim_C1_cex :
    tlookup cexTypeMap "Unknown" = none ∧
    "Unknown" ∈ depsOf (buildDependencyMap cexFileData cexTypeMap) "Observation" ∧
    tlookup cexTypeMap "Patient_Contact" = some "Patient" ∧
    "Patient_Contact" ∈ depsOf (buildDependencyMap cexFileData cexTypeMap) "Observation" ∧
    ("Patient" ∈ depsOf (buildDependencyMap cexFileData cexTypeMap) "Observation") = False :=
  ⟨by decide, by decide, by decide, by decide, eq_false (by decide)⟩

/-- C1 (amended): the dependency set recorded for a resource `r` consists
of raw reference names themselves: `d` is recorded exactly when some
`file_data` entry for `r` lists `d` among its raw references, `d` is not a
scalar, `d` is not `r`, and the ownership map does not resolve `d` to `r`.
In particular an unresolved reference is kept as an edge to the raw name,
not dropped, and a reference owned by a third resource is recorded under
its own name, not its owner's. -/
theorem claim_C1 (fd : List (String × List String))
    (tm : List (String × String)) (r d : String) :
    d ∈ depsOf (buildDependencyMap fd tm) r ↔
      (∃ raws, (r, raws) ∈ fd ∧ d ∈ raws) ∧
        ¬ d ∈ SCALAR_TYPES ∧ ¬ d = r ∧ ¬ tlookup tm d = some r :=
  mem_depsOf_build fd tm r d

/-- C8: no self-loops — for every graph-builder input and every resource
`r`, `r` is never a member of its own recorded dependency set, even when
`r`'s raw references textually contain `r` itself. -/
theorem claim_C8 (fd : List (String × List String))
    (tm : List (String × String)) (r : String) :
    (r ∈ depsOf (buildDependencyMap fd tm) r) = False := by
  apply eq_false
  intro hr
  obtain ⟨_, _, hne, _⟩ := (mem_depsOf_build fd tm r r).mp hr
  exact hne rfl

/-- C10: every type name extracted at the public interface has length at
least two: names from `get_defined_types`, names produced by the two
declaration searches of `get_main_resource_name` (the marker-interface
search and the plain `type` search), and names collected by
`get_dependencies_from_content` all consist of one capital followed by at
least one further word character, so a single-letter type name is never
returned, chosen by a declaration match, or collected. -/
theorem claim_C10 :
    (∀ content : String, ∀ t ∈ get_defined_types content, 2 ≤ t.length) ∧
    (∀ (marker : List Char) (fuel : Nat) (cs : List Char) (nm : String),
      searchImplDecl marker fuel cs = some nm → 2 ≤ nm.length) ∧
    (∀ (fuel : Nat) (cs : List Char) (nm : String),
      searchTypeDecl fuel cs = some nm → 2 ≤ nm.length) ∧
    (∀ content : String, ∀ d ∈ get_dependencies_from_content content, 2 ≤ d.length) :=
  ⟨fun _ => findAllDefs_length _ _,
   fun marker fuel cs nm h => searchImplDecl_length marker fuel cs nm h,
   fun fuel cs nm h => searchTypeDecl_length fuel cs nm h,
   fun content => get_dependencies_length content⟩

/-- C10 witness: the theorem applied at a concrete document, every
hypothesis discharged by evaluation. -/
theorem claim_C10_witness :
    ("Ab" ∈ get_defined_types exContent ∧ 2 ≤ ("Ab" : String).length) ∧
    (searchImplDecl ("IResource".toList) (exContent.length + 1) exContent.toList
        = some "Ab" ∧ 2 ≤ ("Ab" : String).length) ∧
    (searchTypeDecl (exContent.length + 1) exContent.toList = some "Ab" ∧
      2 ≤ ("Ab" : String).length) ∧
    ("Cd" ∈ get_dependencies_from_content exContent ∧ 2 ≤ ("Cd" : String).length) :=
  ⟨⟨by decide, claim_C10.1 exContent "Ab" (by decide)⟩,
   ⟨by decide,
    claim_C10.2.1 ("IResource".toList) (exContent.length + 1) exContent.toList "Ab" (by decide)⟩,
   ⟨by decide, claim_C10.2.2.1 (exContent.length + 1) exContent.toList "Ab" (by decide)⟩,
   ⟨by decide, claim_C10.2.2.2 exContent "Cd" (by decide)⟩⟩

theorem mem_readyAt (m : DepMap) (done : List String) (n : String) :
    n ∈ readyAt m done ↔
      n ∈ nodesList m ∧ ¬ n ∈ done ∧ ∀ d ∈ depsOf m n, d ∈ done := by
  unfold readyAt
  rw [mem_sortS, List.mem_filter]
  simp only [Bool.and_eq_true, decide_eq_true_eq]

theorem doneAt_succ (m : DepMap) (k : Nat) :
    doneAt m (k + 1) = doneAt m k ++ wave m k := rfl

theorem doneAt_mono_succ (m : DepMap) (k : Nat) :
    ∀ x ∈ doneAt m k, x ∈ doneAt m (k + 1) := by
  intro x hx
  rw [doneAt_succ]
  exact List.mem_append_left _ hx

theorem doneAt_add (m : DepMap) (j t : Nat) :
    ∀ x ∈ doneAt m j, x ∈ doneAt m (j + t) := by
  induction t with
  | zero => intro x hx; exact hx
  | succ t ih => intro x hx; exact doneAt_mono_succ m (j + t) x (ih x hx)

theorem doneAt_mono (m : DepMap) {j k : Nat} (h : j ≤ k) :
    ∀ x ∈ doneAt m j, x ∈ doneAt m k := by
  obtain ⟨t, rfl⟩ := Nat.exists_eq_add_of_le h
  exact doneAt_add m j t

theorem wave_subset_nodes (m : DepMap) (k : Nat) :
    ∀ n ∈ wave m k, n ∈ nodesList m :=
  fun n hn => ((mem_readyAt m _ n).mp hn).1

theorem wave_not_done (m : DepMap) (k : Nat) :
    ∀ n ∈ wave m k, ¬ n ∈ doneAt m k :=
  fun n hn => ((mem_readyAt m _ n).mp hn).2.1

theorem wave_deps_done (m : DepMap) (k : Nat) :
    ∀ n ∈ wave m k, ∀ d ∈ depsOf m n, d ∈ doneAt m k :=
  fun n hn => ((mem_readyAt m _ n).mp hn).2.2

theorem mem_doneAt_iff (m : DepMap) (k : Nat) (n : String) :
    n ∈ doneAt m k ↔ ∃ j, j < k ∧ n ∈ wave m j := by
  induction k with
  | zero => simp [doneAt]
  | succ k ih =>
    rw [doneAt_succ, List.mem_append, ih]
    constructor
    · rintro (⟨j, hj, hw⟩ | hw)
      · exact ⟨j, Nat.lt_succ_of_lt hj, hw⟩
      · exact ⟨k, Nat.lt_succ_self k, hw⟩
    · rintro ⟨j, hj, hw⟩
      rcases Nat.lt_succ_iff_lt_or_eq.mp hj with h | h
      · exact Or.inl ⟨j, h, hw⟩
      · subst h
        exact Or.inr hw

theorem wave_minimal (m : DepMap) (k : Nat) (n : String)
    (hn : n ∈ wave m (k + 1)) : ∃ d ∈ depsOf m n, ¬ d ∈ doneAt m k := by
  by_contra h
  push_neg at h
  obtain ⟨hnode, hnd, _⟩ := (mem_readyAt m _ n).mp hn
  have hwk : n ∈ wave m k :=
    (mem_readyAt m _ n).mpr
      ⟨hnode, fun hc => hnd (doneAt_mono_succ m k n hc), h⟩
  refine hnd ?_
  rw [doneAt_succ]
  exact List.mem_append_right _ hwk

theorem stall_stable (m : DepMap) (k : Nat) (hk : wave m k = []) :
    ∀ t, doneAt m (k + t) = doneAt m k := by
  intro t
  induction t with
  | zero => rfl
  | succ t ih =>
    have hw : wave m (k + t) = [] := by
      unfold wave at hk ⊢
      rw [ih]
      exact hk
    show doneAt m (k + t) ++ wave m (k + t) = doneAt m k
    rw [hw, List.append_nil, ih]

theorem depsOf_subset_nodes (m : DepMap) (n d : String)
    (hd : d ∈ depsOf m n) : d ∈ nodesList m := by
  by_cases hk : n ∈ m.keys
  · unfold nodesList
    rw [List.mem_dedup, List.mem_append]
    right
    rw [List.mem_flatMap]
    exact ⟨n, hk, hd⟩
  · unfold depsOf at hd
    rw [if_neg hk] at hd
    cases hd

theorem levelLoop_ok_rows (m : DepMap) :
    ∀ (fuel k : Nat) (rows : List Row),
      levelLoop m fuel (doneAt m k) k = Except.ok rows →
      (∃ t, ∀ n ∈ nodesList m, n ∈ doneAt m (k + t)) ∧
      (∀ L n ds, (L, n, ds) ∈ rows ↔
          k ≤ L ∧ n ∈ wave m L ∧ ds = sortS (depsOf m n)) := by
  intro fuel
  induction fuel with
  | zero => intro k rows h; cases h
  | succ f ih =>
    intro k rows h
    rw [levelLoop] at h
    by_cases hall : (nodesList m).all (fun n => decide (n ∈ doneAt m k)) = true
    · rw [if_pos hall] at h
      injection h with h1
      subst h1
      rw [List.all_eq_true] at hall
      constructor
      · refine ⟨0, ?_⟩
        intro n hn
        simpa using hall n hn
      · intro L n ds
        constructor
        · intro hc
          cases hc
        · rintro ⟨hk, hw, _⟩
          exfalso
          have hnodes : n ∈ nodesList m := wave_subset_nodes m L n hw
          have hdone : n ∈ doneAt m L :=
            doneAt_mono m hk n (by simpa using hall n hnodes)
          exact wave_not_done m L n hw hdone
    · rw [if_neg hall] at h
      by_cases hready : readyAt m (doneAt m k) = []
      · rw [if_pos hready] at h
        cases h
      · rw [if_neg hready] at h
        cases hrec : levelLoop m f (doneAt m k ++ readyAt m (doneAt m k)) (k + 1) with
        | error e =>
          simp only [hrec] at h
          exact Except.noConfusion h
        | ok rows2 =>
          simp only [hrec] at h
          have hrec2 : levelLoop m f (doneAt m (k + 1)) (k + 1) = Except.ok rows2 := hrec
          injection h with h1
          subst h1
          obtain ⟨⟨t, hall2⟩, hmem2⟩ := ih (k + 1) rows2 hrec2
          constructor
          · refine ⟨t + 1, ?_⟩
            intro n hn
            have := hall2 n hn
            rw [show k + (t + 1) = k + 1 + t by omega]
            exact this
          · intro L n ds
            rw [List.mem_append, hmem2]
            constructor
            · rintro (hmap | ⟨hkL, hw, hds⟩)
              · obtain ⟨a, ha, heq⟩ := List.mem_map.mp hmap
                injection heq with e1 e2
                injection e2 with e2 e3
                subst e1
                subst e2
                subst e3
                exact ⟨Nat.le_refl _, ha, rfl⟩
              · exact ⟨Nat.le_of_succ_le hkL, hw, hds⟩
            · rintro ⟨hkL, hw, hds⟩
              rcases Nat.eq_or_lt_of_le hkL with hEq | hlt
              · left
                subst hds
                subst hEq
                exact List.mem_map.mpr ⟨n, hw, rfl⟩
              · right
                exact ⟨hlt, hw, hds⟩

theorem levelCsv_ok_rows (m : DepMap) (rows : List Row)
    (h : levelCsv m = Except.ok rows) :
    (∀ n ∈ nodesList m, ∃ j, n ∈ wave m j) ∧
    (∀ L n ds, (L, n, ds) ∈ rows ↔
        n ∈ wave m L ∧ ds = sortS (depsOf m n)) := by
  have h0 : levelLoop m ((nodesList m).length + 1) (doneAt m 0) 0 = Except.ok rows := h
  obtain ⟨⟨t, hall⟩, hmem⟩ := levelLoop_ok_rows m ((nodesList m).length + 1) 0 rows h0
  constructor
  · intro n hn
    have := hall n hn
    obtain ⟨j, _, hw⟩ := (mem_doneAt_iff m (0 + t) n).mp this
    exact ⟨j, hw⟩
  · intro L n ds
    rw [hmem L n ds]
    constructor
    · rintro ⟨_, hw, hds⟩
      exact ⟨hw, hds⟩
    · rintro ⟨hw, hds⟩
      exact ⟨Nat.zero_le _, hw, hds⟩

theorem levelCsv_stall (m : DepMap) (k : Nat) (h : stallAt m k) :
    levelCsv m = Except.error () := by
  cases hc : levelCsv m with
  | error e => cases e; rfl
  | ok rows =>
    exfalso
    obtain ⟨hready, n, hn, hnd⟩ := h
    obtain ⟨hall, _⟩ := levelCsv_ok_rows m rows hc
    obtain ⟨j, hw⟩ := hall n hn
    rcases Nat.lt_or_ge j k with hj | hj
    · apply hnd
      apply doneAt_mono m (Nat.succ_le_of_lt hj)
      rw [doneAt_succ]
      exact List.mem_append_right _ hw
    · obtain ⟨t, rfl⟩ := Nat.exists_eq_add_of_le hj
      have hempty : wave m (k + t) = [] := by
        unfold wave
        rw [stall_stable m k hready t]
        exact hready
      rw [hempty] at hw
      cases hw

theorem exists_min_rank (rank : String → Nat) :
    ∀ (l : List String), ¬ l = [] → ∃ n ∈ l, ∀ x ∈ l, rank n ≤ rank x := by
  intro l
  induction l with
  | nil => intro h; exact absurd rfl h
  | cons a t ih =>
    intro _
    by_cases ht : t = []
    · subst ht
      refine ⟨a, List.mem_cons_self _ _, ?_⟩
      intro x hx
      rcases List.mem_cons.mp hx with h | h
      · subst h
        exact Nat.le_refl _
      · cases h
    · obtain ⟨n, hn, hmin⟩ := ih ht
      rcases Nat.le_total (rank a) (rank n) with hle | hle
      · refine ⟨a, List.mem_cons_self _ _, ?_⟩
        intro x hx
        rcases List.mem_cons.mp hx with h | h
        · subst h
          exact Nat.le_refl _
        · exact Nat.le_trans hle (hmin x h)
      · refine ⟨n, List.mem_cons_of_mem _ hn, ?_⟩
        intro x hx
        rcases List.mem_cons.mp hx with h | h
        · subst h
          exact hle
        · exact hmin x h

theorem length_filter_lt {α : Type} (l : List α) (p q : α → Bool)
    (himp : ∀ x, q x = true → p x = true)
    (x : α) (hx : x ∈ l) (hpx : p x = true) (hqx : ¬ q x = true) :
    (l.filter q).length < (l.filter p).length := by
  have hsub : l.filter q = (l.filter p).filter q := by
    rw [List.filter_filter]
    apply List.filter_congr
    intro a _
    cases hq : q a
    · simp
    · simp [himp a hq]
  rw [hsub]
  have hsubl := List.filter_sublist (p := q) (l.filter p)
  rcases Nat.lt_or_ge ((l.filter p).filter q).length (l.filter p).length with h | h
  · exact h
  · exfalso
    have heq : (l.filter p).filter q = l.filter p :=
      hsubl.eq_of_length (Nat.le_antisymm hsubl.length_le h)
    have hxm : x ∈ (l.filter p).filter q := by
      rw [heq]
      exact List.mem_filter.mpr ⟨hx, hpx⟩
    exact hqx (List.mem_filter.mp hxm).2

theorem levelLoop_ok_of_acyclic (m : DepMap) (rank : String → Nat)
    (hrank : ∀ n d, d ∈ depsOf m n → rank d < rank n) :
    ∀ (fuel : Nat) (done : List String) (lvl : Nat),
      ((nodesList m).filter (fun n => decide (¬ n ∈ done))).length < fuel →
      ∃ rows, levelLoop m fuel done lvl = Except.ok rows := by
  intro fuel
  induction fuel with
  | zero =>
    intro done lvl h
    exact absurd h (Nat.not_lt_zero _)
  | succ f ih =>
    intro done lvl hlen
    rw [levelLoop]
    by_cases hall : (nodesList m).all (fun n => decide (n ∈ done)) = true
    · rw [if_pos hall]
      exact ⟨[], rfl⟩
    · rw [if_neg hall]
      have hrem : ¬ (nodesList m).filter (fun n => decide (¬ n ∈ done)) = [] := by
        intro hempty
        apply hall
        rw [List.all_eq_true]
        intro n hn
        by_contra hnd
        have hmem : n ∈ (nodesList m).filter (fun n => decide (¬ n ∈ done)) :=
          List.mem_filter.mpr ⟨hn, by simpa using hnd⟩
        rw [hempty] at hmem
        cases hmem
      obtain ⟨n, hnmem, hmin⟩ := exists_min_rank rank _ hrem
      obtain ⟨hnn, hnd⟩ : n ∈ nodesList m ∧ ¬ n ∈ done := by
        have hm := List.mem_filter.mp hnmem
        exact ⟨hm.1, by simpa using hm.2⟩
      have hready : n ∈ readyAt m done := by
        rw [mem_readyAt]
        refine ⟨hnn, hnd, ?_⟩
        intro d hd
        by_contra hdd
        have hdn : d ∈ nodesList m := depsOf_subset_nodes m n d hd
        have hdm : d ∈ (nodesList m).filter (fun n => decide (¬ n ∈ done)) :=
          List.mem_filter.mpr ⟨hdn, by simpa using hdd⟩
        exact absurd (hrank n d hd) (Nat.not_lt.mpr (hmin d hdm))
      have hne : ¬ readyAt m done = [] := by
        intro h0
        rw [h0] at hready
        cases hready
      rw [if_neg hne]
      have hstep : ((nodesList m).filter
          (fun x => decide (¬ x ∈ done ++ readyAt m done))).length
          < ((nodesList m).filter (fun x => decide (¬ x ∈ done))).length := by
        apply length_filter_lt _ _ _ ?_ n hnn ?_ ?_
        · intro x hq
          simp only [decide_eq_true_eq, List.mem_append] at hq ⊢
          intro hxd
          exact hq (Or.inl hxd)
        · simpa using hnd
        · simp only [decide_eq_true_eq, List.mem_append]
          intro hq
          exact hq (Or.inr hready)
      obtain ⟨rows2, hrec⟩ := ih (done ++ readyAt m done) (lvl + 1) (by omega)
      rw [hrec]
      exact ⟨_, rfl⟩

theorem levelCsv_ok_of_acyclic (m : DepMap) (h : Acyclic m) :
    ∃ rows, levelCsv m = Except.ok rows := by
  obtain ⟨rank, hrank⟩ := h
  apply levelLoop_ok_of_acyclic m rank hrank
  have hle := List.length_filter_le
    (fun n => decide (¬ n ∈ ([] : List String))) (nodesList m)
  omega

theorem acyclic_of_levelCsv_ok (m : DepMap) (rows : List Row)
    (h : levelCsv m = Except.ok rows) : Acyclic m := by
  obtain ⟨hall, _⟩ := levelCsv_ok_rows m rows h
  classical
  refine ⟨fun n => if hx : ∃ j, n ∈ wave m j then Nat.find hx else 0, ?_⟩
  intro n d hd
  have hnk : n ∈ m.keys := by
    by_contra hk
    unfold depsOf at hd
    rw [if_neg hk] at hd
    cases hd
  have hnn : n ∈ nodesList m := by
    unfold nodesList
    rw [List.mem_dedup, List.mem_append]
    exact Or.inl hnk
  have hdn : d ∈ nodesList m := depsOf_subset_nodes m n d hd
  have hex_n : ∃ j, n ∈ wave m j := hall n hnn
  have hex_d : ∃ j, d ∈ wave m j := hall d hdn
  show (if hx : ∃ j, d ∈ wave m j then Nat.find hx else 0)
      < (if hx : ∃ j, n ∈ wave m j then Nat.find hx else 0)
  rw [dif_pos hex_n, dif_pos hex_d]
  have hwn : n ∈ wave m (Nat.find hex_n) := Nat.find_spec hex_n
  have hdd : d ∈ doneAt m (Nat.find hex_n) :=
    wave_deps_done m _ n hwn d hd
  obtain ⟨j, hjlt, hjw⟩ := (mem_doneAt_iff m _ d).mp hdd
  have hfind : Nat.find hex_d ≤ j := Nat.find_min' hex_d hjw
  omega

theorem flatMap_congr_perm {α : Type} (l : List α) (f g : α → List String)
    (h : ∀ x, List.Perm (f x) (g x)) :
    List.Perm (l.flatMap f) (l.flatMap g) := by
  induction l with
  | nil => exact List.Perm.refl _
  | cons a t ih => exact List.Perm.append (h a) ih

theorem nodesList_congr (m1 m2 : DepMap) (hk : List.Perm m1.keys m2.keys)
    (hd : ∀ n, List.Perm (depsOf m1 n) (depsOf m2 n)) :
    List.Perm (nodesList m1) (nodesList m2) := by
  unfold nodesList
  apply List.Perm.dedup
  apply List.Perm.append hk
  exact (flatMap_congr_perm m1.keys _ _ hd).trans
    (List.Perm.flatMap_right (fun k => depsOf m2 k) hk)

theorem all_congr_perm (l1 l2 : List String) (h : List.Perm l1 l2)
    (p : String → Bool) : l1.all p = l2.all p := by
  rw [Bool.eq_iff_iff, List.all_eq_true, List.all_eq_true]
  constructor
  · intro hx x hmem
    exact hx x (h.mem_iff.mpr hmem)
  · intro hx x hmem
    exact hx x (h.mem_iff.mp hmem)

theorem readyAt_congr (m1 m2 : DepMap)
    (hn : List.Perm (nodesList m1) (nodesList m2))
    (hd : ∀ n, List.Perm (depsOf m1 n) (depsOf m2 n)) (done : List String) :
    readyAt m1 done = readyAt m2 done := by
  unfold readyAt
  apply sortS_congr
  have hpred : ∀ x ∈ nodesList m1,
      (decide (¬ x ∈ done) && decide (∀ d ∈ depsOf m1 x, d ∈ done))
        = (decide (¬ x ∈ done) && decide (∀ d ∈ depsOf m2 x, d ∈ done)) := by
    intro x _
    congr 1
    rw [decide_eq_decide]
    constructor
    · intro h d hd2
      exact h d ((hd x).mem_iff.mpr hd2)
    · intro h d hd1
      exact h d ((hd x).mem_iff.mp hd1)
  rw [List.filter_congr hpred]
  exact hn.filter _

theorem map_rows_congr (m1 m2 : DepMap)
    (hd : ∀ n, List.Perm (depsOf m1 n) (depsOf m2 n)) (lvl : Nat)
    (l : List String) :
    l.map (fun n => (lvl, n, sortS (depsOf m1 n)))
      = l.map (fun n => (lvl, n, sortS (depsOf m2 n))) := by
  induction l with
  | nil => rfl
  | cons a t ih => simp [ih, sortS_congr _ _ (hd a)]

theorem levelLoop_congr (m1 m2 : DepMap)
    (hn : List.Perm (nodesList m1) (nodesList m2))
    (hd : ∀ n, List.Perm (depsOf m1 n) (depsOf m2 n)) :
    ∀ (fuel : Nat) (done : List String) (lvl : Nat),
      levelLoop m1 fuel done lvl = levelLoop m2 fuel done lvl := by
  intro fuel
  induction fuel with
  | zero => intro done lvl; rfl
  | succ f ih =>
    intro done lvl
    rw [levelLoop, levelLoop, all_congr_perm _ _ hn]
    simp only [readyAt_congr m1 m2 hn hd, ih, map_rows_congr m1 m2 hd]

theorem levelCsv_congr (m1 m2 : DepMap) (hk : List.Perm m1.keys m2.keys)
    (hd : ∀ n, List.Perm (depsOf m1 n) (depsOf m2 n)) :
    levelCsv m1 = levelCsv m2 := by
  have hn := nodesList_congr m1 m2 hk hd
  unfold levelCsv
  rw [hn.length_eq]
  exact levelLoop_congr m1 m2 hn hd _ [] 0

theorem readyAt_sorted (m : DepMap) (done : List String) :
    (readyAt m done).Sorted (fun a b : String => a ≤ b) := sortS_sorted _

theorem levelLoop_pairwise (m : DepMap) :
    ∀ (fuel : Nat) (done : List String) (lvl : Nat) (rows : List Row),
      levelLoop m fuel done lvl = Except.ok rows →
      (∀ p ∈ rows, lvl ≤ p.1) ∧
      rows.Pairwise (fun p q : Row => p.1 < q.1 ∨ (p.1 = q.1 ∧ p.2.1 ≤ q.2.1)) := by
  intro fuel
  induction fuel with
  | zero =>
    intro done lvl rows h
    cases h
  | succ f ih =>
    intro done lvl rows h
    rw [levelLoop] at h
    by_cases hall : (nodesList m).all (fun n => decide (n ∈ done)) = true
    · rw [if_pos hall] at h
      injection h with h1
      subst h1
      exact ⟨fun p hp => absurd hp (List.not_mem_nil p), List.Pairwise.nil⟩
    · rw [if_neg hall] at h
      by_cases hready : readyAt m done = []
      · rw [if_pos hready] at h
        cases h
      · rw [if_neg hready] at h
        cases hrec : levelLoop m f (done ++ readyAt m done) (lvl + 1) with
        | error e =>
          simp only [hrec] at h
          exact Except.noConfusion h
        | ok rows2 =>
          simp only [hrec] at h
          injection h with h1
          subst h1
          obtain ⟨hlvl2, hpw2⟩ := ih _ _ _ hrec
          constructor
          · intro p hp
            rcases List.mem_append.mp hp with hp | hp
            · obtain ⟨a, _, heq⟩ := List.mem_map.mp hp
              rw [← heq]
            · exact Nat.le_trans (Nat.le_succ lvl) (hlvl2 p hp)
          · rw [List.pairwise_append]
            refine ⟨?_, hpw2, ?_⟩
            · rw [List.pairwise_map]
              apply List.Pairwise.imp ?_ (readyAt_sorted m done)
              intro a b hab
              exact Or.inr ⟨rfl, hab⟩
            · intro p hp q hq
              obtain ⟨a, _, heq⟩ := List.mem_map.mp hp
              left
              rw [← heq]
              exact Nat.lt_of_lt_of_le (Nat.lt_succ_self lvl) (hlvl2 q hq)

/-- C3: the cycle case of the leveler.  In the program the cycle is caught
by `ts.prepare()`, which raises `CycleError` before the CSV file is opened,
so a stalled round (nodes remain, none ready) means the error output with
no rows at all: no remaining resource is ever assigned a level, and the
set of rows written beforehand — necessarily empty — is trivially
preserved.  In particular the two-resource cycle A↔B yields the cycle
error and no level row for either A or B. -/
theorem claim_C3 :
    (∀ (m : DepMap) (k : Nat), stallAt m k → levelCsv m = Except.error ()) ∧
    levelCsv exCycleMap = Except.error () :=
  ⟨fun m k h => levelCsv_stall m k h, rfl⟩

/-- C3 witness: the theorem applied to the concrete two-resource cycle,
whose round 0 is stalled. -/
theorem claim_C3_witness :
    stallAt exCycleMap 0 ∧ levelCsv exCycleMap = Except.error () :=
  ⟨⟨by decide, by decide⟩, claim_C3.1 exCycleMap 0 ⟨by decide, by decide⟩⟩

/-- C2: on every acyclic graph the leveler succeeds, each resource is
assigned one well-defined level, and for every emitted row that level is
strictly greater than the level of every dependency of its resource (each
dependency has its own row strictly below) and is minimal with that
property (a nonzero level has a dependency exactly one level below;
dependency-free resources therefore sit at level 0). -/
theorem claim_C2 (m : DepMap) (h : Acyclic m) :
    ∃ rows, levelCsv m = Except.ok rows ∧
      (∀ n L1 ds1 L2 ds2, (L1, n, ds1) ∈ rows → (L2, n, ds2) ∈ rows →
        L1 = L2) ∧
      ∀ L n ds, (L, n, ds) ∈ rows →
        (∀ d ∈ depsOf m n, ∃ Ld ds2, (Ld, d, ds2) ∈ rows ∧ Ld < L) ∧
        (¬ L = 0 → ∃ d ∈ depsOf m n, ∃ ds2, (L - 1, d, ds2) ∈ rows) := by
  obtain ⟨rows, hrows⟩ := levelCsv_ok_of_acyclic m h
  obtain ⟨hall, hmem⟩ := levelCsv_ok_rows m rows hrows
  refine ⟨rows, hrows, ?_, ?_⟩
  · intro n L1 ds1 L2 ds2 h1 h2
    obtain ⟨hw1, _⟩ := (hmem L1 n ds1).mp h1
    obtain ⟨hw2, _⟩ := (hmem L2 n ds2).mp h2
    by_contra hne
    rcases Nat.lt_or_ge L1 L2 with hlt | hge
    · exact wave_not_done m L2 n hw2
        ((mem_doneAt_iff m L2 n).mpr ⟨L1, hlt, hw1⟩)
    · have hlt : L2 < L1 := by omega
      exact wave_not_done m L1 n hw1
        ((mem_doneAt_iff m L1 n).mpr ⟨L2, hlt, hw2⟩)
  intro L n ds hrow
  obtain ⟨hw, _⟩ := (hmem L n ds).mp hrow
  constructor
  · intro d hd
    have hdd : d ∈ doneAt m L := wave_deps_done m L n hw d hd
    obtain ⟨j, hj, hjw⟩ := (mem_doneAt_iff m L d).mp hdd
    exact ⟨j, sortS (depsOf m d), (hmem j d _).mpr ⟨hjw, rfl⟩, hj⟩
  · intro hL
    obtain ⟨k, rfl⟩ : ∃ k, L = k + 1 := ⟨L - 1, by omega⟩
    obtain ⟨d, hd, hdnot⟩ := wave_minimal m k n hw
    have hdd : d ∈ doneAt m (k + 1) := wave_deps_done m (k + 1) n hw d hd
    obtain ⟨j, hj, hjw⟩ := (mem_doneAt_iff m (k + 1) d).mp hdd
    have hjk : j = k := by
      rcases Nat.lt_succ_iff_lt_or_eq.mp hj with h1 | h1
      · exfalso
        apply hdnot
        apply doneAt_mono m (Nat.succ_le_of_lt h1)
        rw [doneAt_succ]
        exact List.mem_append_right _ hjw
      · exact h1
    subst hjk
    refine ⟨d, hd, sortS (depsOf m d), ?_⟩
    have := (hmem j d (sortS (depsOf m d))).mpr ⟨hjw, rfl⟩
    simpa using this

/-- C2 witness: the theorem applied to the concrete acyclic graph where A
depends on B. -/
theorem claim_C2_witness :
    Acyclic exMapAB ∧
      (∃ rows, levelCsv exMapAB = Except.ok rows ∧
        (∀ n L1 ds1 L2 ds2, (L1, n, ds1) ∈ rows → (L2, n, ds2) ∈ rows →
          L1 = L2) ∧
        ∀ L n ds, (L, n, ds) ∈ rows →
          (∀ d ∈ depsOf exMapAB n, ∃ Ld ds2, (Ld, d, ds2) ∈ rows ∧ Ld < L) ∧
          (¬ L = 0 → ∃ d ∈ depsOf exMapAB n, ∃ ds2, (L - 1, d, ds2) ∈ rows)) := by
  have hacyc : Acyclic exMapAB := by
    refine ⟨fun n => if n = "A" then 1 else 0, ?_⟩
    intro n d hd
    simp only [depsOf, exMapAB] at hd
    by_cases hn : n = "A"
    · subst hn
      simp at hd
      subst hd
      decide
    · simp [hn] at hd
  exact ⟨hacyc, claim_C2 exMapAB hacyc⟩

/-- C4 counterexample: in the one-document corpus whose resource `Ab`
references only the scalar `String`, `Ab` is a corpus resource (it is the
`file_data` entry) but the leveled output is the empty row list — `Ab`
receives no level-0 row, because after filtering it is neither a graph key
nor any resource's dependency and so is absent from the sorter's node
set. -/
theorem claim_C4_cex :
    (processCorpus cexCorpusScalar).1 = [("Ab", ["String"])] ∧
    levelCsv (corpusDepMap cexCorpusScalar) = Except.ok [] :=
  ⟨rfl, rfl⟩

/-- C4 (amended): the leveled output covers exactly the nodes of the graph
handed to the sorter (the keys and every dependency target): on success
every such node has a row, nothing else does, and a node with an empty
dependency set receives level 0.  A corpus resource that is neither a key
nor a dependency target — all of its references filtered out and nothing
depending on it — is absent from the leveled output entirely. -/
theorem claim_C4 (m : DepMap) (rows : List Row)
    (h : levelCsv m = Except.ok rows) :
    (∀ n, (∃ L ds, (L, n, ds) ∈ rows) ↔ n ∈ nodesList m) ∧
    (∀ n ∈ nodesList m, depsOf m n = [] → ∃ ds, (0, n, ds) ∈ rows) := by
  obtain ⟨hall, hmem⟩ := levelCsv_ok_rows m rows h
  constructor
  · intro n
    constructor
    · rintro ⟨L, ds, hrow⟩
      exact wave_subset_nodes m L n ((hmem L n ds).mp hrow).1
    · intro hn
      obtain ⟨j, hj⟩ := hall n hn
      exact ⟨j, sortS (depsOf m n), (hmem j n _).mpr ⟨hj, rfl⟩⟩
  · intro n hn hdeps
    have hw : n ∈ wave m 0 := by
      rw [show wave m 0 = readyAt m (doneAt m 0) from rfl, mem_readyAt]
      refine ⟨hn, fun hc => absurd hc (List.not_mem_nil n), ?_⟩
      intro d hd
      rw [hdeps] at hd
      cases hd
    exact ⟨sortS (depsOf m n), (hmem 0 n _).mpr ⟨hw, rfl⟩⟩

/-- C4 witness: the amended theorem applied to the concrete graph where A
depends on B: B (a dependency target, not a key) receives level 0 and
both nodes have rows. -/
theorem claim_C4_witness :
    levelCsv exMapAB = Except.ok [(0, "B", []), (1, "A", ["B"])] ∧
    ((∀ n, (∃ L ds, (L, n, ds) ∈
        [(0, "B", ([] : List String)), (1, "A", ["B"])]) ↔ n ∈ nodesList exMapAB) ∧
      (∀ n ∈ nodesList exMapAB, depsOf exMapAB n = [] →
        ∃ ds, (0, n, ds) ∈ [(0, "B", ([] : List String)), (1, "A", ["B"])])) :=
  ⟨rfl, claim_C4 exMapAB [(0, "B", []), (1, "A", ["B"])] rfl⟩

/-- C7: the leveled output is deterministic — two graphs whose key lists
and per-resource dependency sets are permutations of one another (the same
graph handed over in any iteration order) produce identical output, rows
included; and the emitted rows are ordered by level and, within a level,
by ascending name. -/
theorem claim_C7 :
    (∀ m1 m2 : DepMap, List.Perm m1.keys m2.keys →
      (∀ n, List.Perm (depsOf m1 n) (depsOf m2 n)) →
      levelCsv m1 = levelCsv m2) ∧
    (∀ (m : DepMap) (rows : List Row), levelCsv m = Except.ok rows →
      rows.Pairwise (fun p q : Row => p.1 < q.1 ∨ (p.1 = q.1 ∧ p.2.1 ≤ q.2.1))) :=
  ⟨fun m1 m2 hk hd => levelCsv_congr m1 m2 hk hd,
   fun m rows h => (levelLoop_pairwise m _ [] 0 rows h).2⟩

/-- C7 witness: the theorem applied to the same graph supplied in two
iteration orders, and to its concrete sorted row output. -/
theorem claim_C7_witness :
    levelCsv exMapOrder1 = levelCsv exMapOrder2 ∧
    ([(0, "B", ([] : List String)), (1, "A", ["B"]), (2, "C", ["A"])].Pairwise
      (fun p q : Row => p.1 < q.1 ∨ (p.1 = q.1 ∧ p.2.1 ≤ q.2.1))) := by
  have hk : List.Perm exMapOrder1.keys exMapOrder2.keys := by decide
  have hd : ∀ n, List.Perm (depsOf exMapOrder1 n) (depsOf exMapOrder2 n) := by
    intro n
    by_cases h1 : n = "A"
    · subst h1
      decide
    · by_cases h2 : n = "C"
      · subst h2
        decide
      · have e1 : depsOf exMapOrder1 n = [] := by
          simp [depsOf, exMapOrder1, h1, h2]
        have e2 : depsOf exMapOrder2 n = [] := by
          simp [depsOf, exMapOrder2, h1, h2]
        rw [e1, e2]
  exact ⟨claim_C7.1 exMapOrder1 exMapOrder2 hk hd,
    claim_C7.2 exMapOrder1
      [(0, "B", []), (1, "A", ["B"]), (2, "C", ["A"])] rfl⟩

theorem optMapList_some_of_all {α β : Type} (f : α → Option β) (l : List α)
    (h : ∀ x ∈ l, ∃ y, f x = some y) : ∃ ys, optMapList f l = some ys := by
  induction l with
  | nil => exact ⟨[], rfl⟩
  | cons a t ih =>
    obtain ⟨y, hy⟩ := h a (List.mem_cons_self _ _)
    obtain ⟨ys, hys⟩ := ih (fun x hx => h x (List.mem_cons_of_mem _ hx))
    refine ⟨y :: ys, ?_⟩
    simp only [optMapList, hy, hys]

theorem buildNode_name (m : DepMap) (fuel : Nat) (nm : String) (t : TreeNode)
    (h : buildNode m fuel nm = some t) : t.name = nm := by
  cases fuel with
  | zero => cases h
  | succ f =>
    rw [buildNode] at h
    by_cases hds : sortS (depsOf m nm) = []
    · rw [if_pos hds] at h
      injection h with h1
      subst h1
      rfl
    · rw [if_neg hds] at h
      cases hmap : optMapList (buildNode m f) (sortS (depsOf m nm)) with
      | none =>
        simp only [hmap] at h
        exact Option.noConfusion h
      | some cs =>
        simp only [hmap] at h
        injection h with h1
        subst h1
        rfl

theorem optMapList_name_inv (m : DepMap) (fuel : Nat) :
    ∀ (ds : List String) (cs : List TreeNode),
      optMapList (buildNode m fuel) ds = some cs →
      cs.map TreeNode.name = ds ∧ ∀ c ∈ cs, ∃ d, buildNode m fuel d = some c := by
  intro ds
  induction ds with
  | nil =>
    intro cs h
    simp only [optMapList] at h
    injection h with h1
    subst h1
    exact ⟨rfl, fun c hc => absurd hc (List.not_mem_nil c)⟩
  | cons d t ih =>
    intro cs h
    simp only [optMapList] at h
    cases hfa : buildNode m fuel d with
    | none =>
      simp only [hfa] at h
      exact Option.noConfusion h
    | some b =>
      cases hrest : optMapList (buildNode m fuel) t with
      | none =>
        simp only [hfa, hrest] at h
        exact Option.noConfusion h
      | some bs =>
        simp only [hfa, hrest] at h
        injection h with h1
        subst h1
        obtain ⟨hmap, hmem⟩ := ih bs hrest
        constructor
        · rw [List.map_cons, hmap, buildNode_name m fuel d b hfa]
        · intro c hc
          rcases List.mem_cons.mp hc with hc | hc
          · subst hc
            exact ⟨d, hfa⟩
          · exact hmem c hc

theorem buildNode_matches (m : DepMap) :
    ∀ (fuel : Nat) (nm : String) (t : TreeNode),
      buildNode m fuel nm = some t → TreeMatches m t := by
  intro fuel
  induction fuel with
  | zero => intro nm t h; cases h
  | succ f ih =>
    intro nm t h
    rw [buildNode] at h
    by_cases hds : sortS (depsOf m nm) = []
    · rw [if_pos hds] at h
      injection h with h1
      subst h1
      exact TreeMatches.leaf nm ((sortS_eq_nil_iff _).mp hds)
    · rw [if_neg hds] at h
      cases hmap : optMapList (buildNode m f) (sortS (depsOf m nm)) with
      | none =>
        simp only [hmap] at h
        exact Option.noConfusion h
      | some cs =>
        simp only [hmap] at h
        injection h with h1
        subst h1
        obtain ⟨hname, hmem⟩ := optMapList_name_inv m f _ cs hmap
        refine TreeMatches.branch nm cs ?_ hname ?_
        · intro hnil
          apply hds
          rw [hnil]
          rfl
        · intro c hc
          obtain ⟨d, hd⟩ := hmem c hc
          exact ih d c hd

theorem buildNode_total (m : DepMap) (rank : String → Nat)
    (hrank : ∀ n d, d ∈ depsOf m n → rank d < rank n) :
    ∀ (fuel : Nat) (nm : String),
      ((nodesList m).filter (fun x => decide (rank x < rank nm))).length < fuel →
      ∃ t, buildNode m fuel nm = some t := by
  intro fuel
  induction fuel with
  | zero => intro nm h; exact absurd h (Nat.not_lt_zero _)
  | succ f ih =>
    intro nm hlen
    rw [buildNode]
    by_cases hds : sortS (depsOf m nm) = []
    · rw [if_pos hds]
      exact ⟨_, rfl⟩
    · rw [if_neg hds]
      have hall : ∀ d ∈ sortS (depsOf m nm), ∃ t, buildNode m f d = some t := by
        intro d hd
        rw [mem_sortS] at hd
        apply ih
        have hdn : d ∈ nodesList m := depsOf_subset_nodes m nm d hd
        have hlt : rank d < rank nm := hrank nm d hd
        have hstep : ((nodesList m).filter (fun x => decide (rank x < rank d))).length
            < ((nodesList m).filter (fun x => decide (rank x < rank nm))).length := by
          apply length_filter_lt _ _ _ ?_ d hdn ?_ ?_
          · intro x hq
            simp only [decide_eq_true_eq] at hq ⊢
            omega
          · simp only [decide_eq_true_eq]
            exact hlt
          · simp only [decide_eq_true_eq]
            omega
        omega
      obtain ⟨cs, hcs⟩ := optMapList_some_of_all _ _ hall
      simp only [hcs]
      exact ⟨_, rfl⟩

theorem occursIn_trans (a b c : TreeNode) (h1 : OccursIn a b)
    (h2 : OccursIn b c) : OccursIn a c := by
  induction h2 with
  | refl => exact h1
  | child c2 nm cs hc hocc ih => exact OccursIn.child _ _ _ _ hc ih

theorem occursIn_matches (m : DepMap) (t r : TreeNode) (hocc : OccursIn t r) :
    TreeMatches m r → TreeMatches m t := by
  induction hocc with
  | refl => exact fun h => h
  | child c nm cs hc hocc ih =>
    intro hm
    cases hm with
    | branch x1 x2 x3 x4 x5 => exact ih (x5 c hc)

theorem mem_rootsList (m : DepMap) (r : String) :
    r ∈ rootsList m ↔ r ∈ m.keys ∧ ∀ k, ¬ r ∈ depsOf m k := by
  unfold rootsList
  rw [mem_sortS, List.mem_filter, List.mem_dedup]
  simp only [decide_eq_true_eq]
  constructor
  · rintro ⟨hk, hnd⟩
    refine ⟨hk, ?_⟩
    intro k hcontra
    apply hnd
    rw [List.mem_flatMap]
    have hkk : k ∈ m.keys := by
      by_contra hkk
      unfold depsOf at hcontra
      rw [if_neg hkk] at hcontra
      cases hcontra
    exact ⟨k, hkk, hcontra⟩
  · rintro ⟨hk, hnd⟩
    refine ⟨hk, ?_⟩
    intro hcontra
    rw [List.mem_flatMap] at hcontra
    obtain ⟨k, _, hdep⟩ := hcontra
    exact hnd k hdep

theorem forest_reach (m : DepMap) (rank : String → Nat)
    (hrank : ∀ n d, d ∈ depsOf m n → rank d < rank n) (ts : List TreeNode)
    (hts : optMapList (buildNode m ((nodesList m).length + 1)) (rootsList m)
      = some ts) :
    ∀ (N : Nat) (n : String), n ∈ nodesList m →
      ((nodesList m).filter (fun x => decide (rank n < rank x))).length < N →
      ∃ t, (∃ r ∈ ts, OccursIn t r) ∧ TreeNode.name t = n := by
  intro N
  induction N with
  | zero => intro n _ h; exact absurd h (Nat.not_lt_zero _)
  | succ N ih =>
    intro n hn hlen
    obtain ⟨hmapts, hmemts⟩ := optMapList_name_inv m _ _ ts hts
    by_cases hroot : n ∈ rootsList m
    · rw [← hmapts] at hroot
      obtain ⟨t, ht, hname⟩ := List.mem_map.mp hroot
      exact ⟨t, ⟨t, ht, OccursIn.refl t⟩, hname⟩
    · have hcase : n ∈ m.keys ∨ n ∈ m.keys.flatMap (fun k => depsOf m k) := by
        unfold nodesList at hn
        rw [List.mem_dedup, List.mem_append] at hn
        exact hn
      have hdep : ∃ k, n ∈ depsOf m k := by
        rcases hcase with hk | hfm
        · by_contra hnone
          push_neg at hnone
          exact hroot ((mem_rootsList m n).mpr ⟨hk, hnone⟩)
        · rw [List.mem_flatMap] at hfm
          obtain ⟨k, _, hd⟩ := hfm
          exact ⟨k, hd⟩
      obtain ⟨k, hkdep⟩ := hdep
      have hkk : k ∈ m.keys := by
        by_contra hkk
        unfold depsOf at hkdep
        rw [if_neg hkk] at hkdep
        cases hkdep
      have hkn : k ∈ nodesList m := by
        unfold nodesList
        rw [List.mem_dedup, List.mem_append]
        exact Or.inl hkk
      have hlt : rank n < rank k := hrank k n hkdep
      have hstep : ((nodesList m).filter (fun x => decide (rank k < rank x))).length
          < ((nodesList m).filter (fun x => decide (rank n < rank x))).length := by
        apply length_filter_lt _ _ _ ?_ k hkn ?_ ?_
        · intro x hq
          simp only [decide_eq_true_eq] at hq ⊢
          omega
        · simp only [decide_eq_true_eq]
          exact hlt
        · simp only [decide_eq_true_eq]
          omega
      obtain ⟨tk, ⟨rk, hrk, hocc⟩, hname⟩ := ih k hkn (by omega)
      obtain ⟨dk, hdk⟩ := hmemts rk hrk
      have hmk : TreeMatches m tk :=
        occursIn_matches m tk rk hocc (buildNode_matches m _ dk rk hdk)
      have hne : ¬ depsOf m k = [] := by
        intro hnil
        rw [hnil] at hkdep
        cases hkdep
      cases hmk with
      | leaf nm hnil =>
        exfalso
        apply hne
        have hnm : nm = k := hname
        rw [← hnm]
        exact hnil
      | branch nm cs hne2 hmap hall =>
        have hnm : nm = k := hname
        subst hnm
        have hmemn : n ∈ cs.map TreeNode.name := by
          rw [hmap, mem_sortS]
          exact hkdep
        obtain ⟨c, hc, hcn⟩ := List.mem_map.mp hmemn
        refine ⟨c, ⟨rk, hrk, ?_⟩, hcn⟩
        exact occursIn_trans c _ rk (OccursIn.child c c nm cs hc (OccursIn.refl c)) hocc

theorem exMapAB_acyclic : Acyclic exMapAB := by
  refine ⟨fun n => if n = "A" then 1 else 0, ?_⟩
  intro n d hd
  simp only [depsOf, exMapAB] at hd
  by_cases hn : n = "A"
  · subst hn
    simp at hd
    subst hd
    decide
  · simp [hn] at hd

theorem exCycleMap_not_acyclic : ¬ Acyclic exCycleMap := by
  rintro ⟨rank, hrank⟩
  have h1 : rank "B" < rank "A" := hrank "A" "B" (by decide)
  have h2 : rank "A" < rank "B" := hrank "B" "A" (by decide)
  omega

/-- C5: tree construction never runs unboundedly.  On cyclic input the
program fails fast — `ts.prepare()` raises before tree generation is
reached, so no tree output exists at all — and on acyclic input the
recursive expansion terminates and produces the forest. -/
theorem claim_C5 (m : DepMap) :
    (¬ Acyclic m → pipelineTree m = none) ∧
    (Acyclic m → ∃ ts, pipelineTree m = some ts) := by
  constructor
  · intro hna
    cases hc : levelCsv m with
    | error e =>
      unfold pipelineTree
      rw [hc]
    | ok rows => exact absurd (acyclic_of_levelCsv_ok m rows hc) hna
  · intro ha
    obtain ⟨rank, hrank⟩ := ha
    obtain ⟨rows, hrows⟩ := levelCsv_ok_of_acyclic m ⟨rank, hrank⟩
    have hall : ∀ r ∈ rootsList m,
        ∃ t, buildNode m ((nodesList m).length + 1) r = some t := by
      intro r _
      apply buildNode_total m rank hrank
      have hle := List.length_filter_le
        (fun x => decide (rank x < rank r)) (nodesList m)
      omega
    obtain ⟨ts, hts⟩ := optMapList_some_of_all _ _ hall
    refine ⟨ts, ?_⟩
    unfold pipelineTree
    rw [hrows]
    show optMapList (buildNode m ((nodesList m).length + 1)) (rootsList m)
        = some ts
    exact hts

/-- C5 witness: the theorem applied to the concrete cyclic graph (no tree
output) and to the concrete acyclic graph (the forest exists). -/
theorem claim_C5_witness :
    (¬ Acyclic exCycleMap ∧ pipelineTree exCycleMap = none) ∧
    (Acyclic exMapAB ∧ ∃ ts, pipelineTree exMapAB = some ts) :=
  ⟨⟨exCycleMap_not_acyclic, (claim_C5 exCycleMap).1 exCycleMap_not_acyclic⟩,
   ⟨exMapAB_acyclic, (claim_C5 exMapAB).2 exMapAB_acyclic⟩⟩

/-- C6 counterexample: in the three-document corpus, `Ef` is a corpus
resource (a `file_data` entry) that appears in no resource's dependency
set, yet the root list is exactly `["Ab"]` — an edge-less leaf that
nothing depends on is not a root, because roots are taken from the graph
keys only. -/
theorem claim_C6_cex :
    ("Ef", ["String"]) ∈ (processCorpus cexCorpusLeaf).1 ∧
    ("Ef" ∈ (corpusDepMap cexCorpusLeaf).keys.flatMap
      (fun k => depsOf (corpusDepMap cexCorpusLeaf) k)) = False ∧
    rootsList (corpusDepMap cexCorpusLeaf) = ["Ab"] :=
  ⟨by decide, eq_false (by decide), by decide⟩

/-- C6 (amended): the roots of the tree output are exactly the graph keys
that appear in no resource's dependency set; the root list — and with it
the sequence of root trees — is in ascending lexicographic order of root
name; an edge-less leaf resource (never a graph key) is not a root even
when nothing depends on it. -/
theorem claim_C6 (m : DepMap) :
    (∀ r, r ∈ rootsList m ↔ r ∈ m.keys ∧ ∀ k, ¬ r ∈ depsOf m k) ∧
    (rootsList m).Sorted (fun a b : String => a ≤ b) ∧
    (∀ ts, pipelineTree m = some ts →
      ts.map TreeNode.name = rootsList m) := by
  refine ⟨fun r => mem_rootsList m r, sortS_sorted _, ?_⟩
  intro ts hts
  unfold pipelineTree at hts
  cases hc : levelCsv m with
  | error e =>
    rw [hc] at hts
    exact Option.noConfusion hts
  | ok rows =>
    rw [hc] at hts
    exact (optMapList_name_inv m _ _ ts hts).1

/-- C6 witness: the amended theorem instantiated at the concrete graph
where A depends on B. -/
theorem claim_C6_witness :
    ("A" ∈ rootsList exMapAB ↔
      "A" ∈ exMapAB.keys ∧ ∀ k, ¬ "A" ∈ depsOf exMapAB k) ∧
    (rootsList exMapAB).Sorted (fun a b : String => a ≤ b) ∧
    ([TreeNode.node "A" (some [TreeNode.node "B" none])].map TreeNode.name
      = rootsList exMapAB) :=
  ⟨(claim_C6 exMapAB).1 "A", (claim_C6 exMapAB).2.1,
   (claim_C6 exMapAB).2.2 [TreeNode.node "A" (some [TreeNode.node "B" none])] rfl⟩

/-- C9: round trip between the produced forest and the graph, on every
acyclic graph: every node occurring in the forest carries exactly its
resource's sorted dependency set as children names, with the children
field absent exactly when the dependency set is empty; and every resource
with a nonempty dependency set appears in the forest as a node with the
matching nonempty children list. -/
theorem claim_C9 (m : DepMap) (h : Acyclic m) :
    ∃ ts, pipelineTree m = some ts ∧
      (∀ t r, r ∈ ts → OccursIn t r → TreeMatches m t) ∧
      (∀ n, n ∈ m.keys → ¬ depsOf m n = [] →
        ∃ cs, ¬ cs = [] ∧ cs.map TreeNode.name = sortS (depsOf m n) ∧
          ∃ r ∈ ts, OccursIn (TreeNode.node n (some cs)) r) := by
  obtain ⟨rank, hrank⟩ := h
  obtain ⟨rows, hrows⟩ := levelCsv_ok_of_acyclic m ⟨rank, hrank⟩
  have hall : ∀ r ∈ rootsList m,
      ∃ t, buildNode m ((nodesList m).length + 1) r = some t := by
    intro r _
    apply buildNode_total m rank hrank
    have hle := List.length_filter_le
      (fun x => decide (rank x < rank r)) (nodesList m)
    omega
  obtain ⟨ts, hts⟩ := optMapList_some_of_all _ _ hall
  have hpt : pipelineTree m = some ts := by
    unfold pipelineTree
    rw [hrows]
    show optMapList (buildNode m ((nodesList m).length + 1)) (rootsList m)
        = some ts
    exact hts
  obtain ⟨hmapts, hmemts⟩ := optMapList_name_inv m _ _ ts hts
  refine ⟨ts, hpt, ?_, ?_⟩
  · intro t r hr hocc
    obtain ⟨d, hd⟩ := hmemts r hr
    exact occursIn_matches m t r hocc (buildNode_matches m _ d r hd)
  · intro n hnk hne
    have hnn : n ∈ nodesList m := by
      unfold nodesList
      rw [List.mem_dedup, List.mem_append]
      exact Or.inl hnk
    obtain ⟨t, ⟨r, hr, hocc⟩, hname⟩ :=
      forest_reach m rank hrank ts hts
        (((nodesList m).filter (fun x => decide (rank n < rank x))).length + 1)
        n hnn (Nat.lt_succ_self _)
    obtain ⟨d, hd⟩ := hmemts r hr
    have hmt : TreeMatches m t :=
      occursIn_matches m t r hocc (buildNode_matches m _ d r hd)
    cases hmt with
    | leaf nm hnil =>
      exfalso
      apply hne
      have hnm : nm = n := hname
      rw [← hnm]
      exact hnil
    | branch nm cs hne2 hmap hall2 =>
      have hnm : nm = n := hname
      subst hnm
      refine ⟨cs, ?_, hmap, r, hr, hocc⟩
      intro hcs
      subst hcs
      exact hne ((sortS_eq_nil_iff _).mp hmap.symm)

/-- C9 witness: the theorem applied to the concrete acyclic graph where A
depends on B. -/
theorem claim_C9_witness :
    Acyclic exMapAB ∧
      ∃ ts, pipelineTree exMapAB = some ts ∧
        (∀ t r, r ∈ ts → OccursIn t r → TreeMatches exMapAB t) ∧
        (∀ n, n ∈ exMapAB.keys → ¬ depsOf exMapAB n = [] →
          ∃ cs, ¬ cs = [] ∧ cs.map TreeNode.name = sortS (depsOf exMapAB n) ∧
            ∃ r ∈ ts, OccursIn (TreeNode.node n (some cs)) r) :=
  ⟨exMapAB_acyclic, claim_C9 exMapAB exMapAB_acyclic⟩

end FhirDeps
